import Mathlib

/-!
Shallow embedding of the flechasdb-benchmark crate (src/sift.rs, src/error.rs,
src/main.rs) and proofs about the claims of its specification.

Modelling conventions:
* Machine bytes and 32-bit words are `Nat` (with explicit bounds where needed).
* An `f32`/`f64` value is modelled as an exact rational `ℚ` when it is finite;
  `Option ℚ` is used where a non-finite value (NaN) can arise, with `none`
  standing for NaN.  The fvecs parser never interprets float payloads, so
  there a 32-bit float is represented by its little-endian bit pattern.
* Fallible Rust code returns `Except`/`Option`; a Rust panic (assert failure,
  out-of-bounds index) is modelled as an error/`none` result.
-/

namespace FlechasBench

/-! ## The fvecs parser (src/sift.rs) -/

/-- Little-endian 32-bit word assembled from four bytes, as decoded by
`byteorder::ReadBytesExt::read_u32::<LittleEndian>`. -/
def u32le (b0 b1 b2 b3 : ℕ) : ℕ :=
  b0 + 256 * b1 + 65536 * b2 + 16777216 * b3

/-- The four little-endian bytes of a 32-bit word. -/
def enc32 (x : ℕ) : List ℕ :=
  [x % 256, x / 256 % 256, x / 65536 % 256, x / 16777216 % 256]

/-- The error type of the benchmark crate (src/error.rs), with the payload
messages dropped.  `ioUnexpectedEof` models `Error::IOError` carrying an
`ErrorKind::UnexpectedEof` produced by a truncated `read_exact`. -/
inductive PErr where
  | invalidData : PErr
  | ioUnexpectedEof : PErr
deriving DecidableEq

/-- Decodes consecutive 4-byte groups into little-endian 32-bit words.
Models `read_f32_into::<LittleEndian>` reading a prefix of the stream: the
parser never interprets the floats, so each one is represented by the
32-bit word that is its bit pattern. -/
def decodeWords : List ℕ → List ℕ
  | b0 :: b1 :: b2 :: b3 :: rest => u32le b0 b1 b2 b3 :: decodeWords rest
  | _ => []

/-- The `loop` of `read_fvecs` (src/sift.rs lines 41-56): read a 4-byte
header (an `UnexpectedEof` there, including one raised mid-header, breaks
the loop), reject a header different from `vsize` as `InvalidData`, then
read `vsize` floats (4·vsize bytes); a shortfall there is the propagated
`UnexpectedEof` IO error. -/
def readVecsLoop (vsize : ℕ) : List ℕ → Except PErr (List (List ℕ))
  | b0 :: b1 :: b2 :: b3 :: rest =>
    if u32le b0 b1 b2 b3 ≠ vsize then .error .invalidData
    else if 4 * vsize ≤ rest.length then
      (readVecsLoop vsize (rest.drop (4 * vsize))).map
        (decodeWords (rest.take (4 * vsize)) :: ·)
    else .error .ioUnexpectedEof
  | _ => .ok []
termination_by bytes => bytes.length
decreasing_by
  simp only [List.length_drop, List.length_cons]
  omega

/-- Model of `read_fvecs` (src/sift.rs lines 25-58).  The first header must
decode to exactly `VECTOR_SIZE = 128`, otherwise `InvalidData`; the first
vector's 128 floats are then read (truncation is the propagated IO error),
and the remaining records are read by `readVecsLoop`.  The final
`BlockVectorSet::chunk` call regroups the flat block into 128-element
vectors, which is the identity on the list of vectors collected here (the
block length is a multiple of 128 by construction). -/
def read_fvecs (bytes : List ℕ) : Except PErr (List (List ℕ)) :=
  match bytes with
  | b0 :: b1 :: b2 :: b3 :: rest =>
    if u32le b0 b1 b2 b3 ≠ 128 then .error .invalidData
    else if 4 * 128 ≤ rest.length then
      (readVecsLoop 128 (rest.drop (4 * 128))).map
        (decodeWords (rest.take (4 * 128)) :: ·)
    else .error .ioUnexpectedEof
  | _ => .error .ioUnexpectedEof

/-- Byte encoding of one well-formed record with the compiled-in dimension
128: a little-endian `u32` header equal to 128 followed by the 4-byte
little-endian payloads of the 128 floats. -/
def encRec (v : List ℕ) : List ℕ := enc32 128 ++ v.flatMap enc32

/-- The 32-bit little-endian word found at a given byte offset of a
stream. -/
def wordAt (bytes : List ℕ) (off : ℕ) : ℕ :=
  u32le ((bytes.drop off).getD 0 0) ((bytes.drop off).getD 1 0)
    ((bytes.drop off).getD 2 0) ((bytes.drop off).getD 3 0)

lemma u32le_enc32 (x : ℕ) (hx : x < 2 ^ 32) :
    u32le (x % 256) (x / 256 % 256) (x / 65536 % 256) (x / 16777216 % 256) = x := by
  unfold u32le
  omega

lemma enc32_length (x : ℕ) : (enc32 x).length = 4 := rfl

lemma flatMap_enc32_length (v : List ℕ) : (v.flatMap enc32).length = 4 * v.length := by
  induction v with
  | nil => rfl
  | cons x t ih => simp [List.flatMap_cons, ih, enc32]; omega

lemma decodeWords_flatMap (v : List ℕ) (hv : ∀ x ∈ v, x < 2 ^ 32) :
    decodeWords (v.flatMap enc32) = v := by
  induction v with
  | nil => rfl
  | cons x t ih =>
    have hx : x < 2 ^ 32 := hv x (by simp)
    simp only [List.flatMap_cons, enc32, List.cons_append, List.nil_append]
    rw [decodeWords, u32le_enc32 x hx, ih (fun y hy => hv y (by simp [hy]))]

lemma encRec_length (v : List ℕ) (hv : v.length = 128) : (encRec v).length = 516 := by
  rw [encRec, List.length_append, flatMap_enc32_length, hv]
  rfl

/-- If the list has fewer than 4 bytes, the loop breaks cleanly with no
further vectors (an `UnexpectedEof` from the header read). -/
lemma readVecsLoop_short (vsize : ℕ) (b : List ℕ) (h : b.length < 4) :
    readVecsLoop vsize b = .ok [] := by
  match b with
  | [] => simp [readVecsLoop]
  | [b0] => simp [readVecsLoop]
  | [b0, b1] => simp [readVecsLoop]
  | [b0, b1, b2] => simp [readVecsLoop]
  | b0 :: b1 :: b2 :: b3 :: rest => simp at h; omega

lemma u32le_128 : u32le 128 0 0 0 = 128 := by decide

lemma enc32_128 : enc32 128 = [128, 0, 0, 0] := by decide

/-- One unfolding step of the loop on a well-formed record followed by
arbitrary further bytes. -/
lemma readVecsLoop_cons (r : List ℕ) (t : List ℕ)
    (hr : r.length = 128) (hx : ∀ x ∈ r, x < 2 ^ 32) :
    readVecsLoop 128 (encRec r ++ t) = (readVecsLoop 128 t).map (r :: ·) := by
  have hlen : (r.flatMap enc32).length = 512 := by
    rw [flatMap_enc32_length, hr]
  have hform : encRec r ++ t = 128 :: 0 :: 0 :: 0 :: (r.flatMap enc32 ++ t) := by
    simp [encRec, enc32_128]
  rw [hform, readVecsLoop]
  have h1 : ¬ (u32le 128 0 0 0 ≠ 128) := by simp [u32le_128]
  rw [if_neg h1]
  have h2 : 4 * 128 ≤ (r.flatMap enc32 ++ t).length := by
    simp [hlen]
  rw [if_pos h2]
  have htake : (r.flatMap enc32 ++ t).take (4 * 128) = r.flatMap enc32 := by
    have : (4 : ℕ) * 128 = (r.flatMap enc32).length := by rw [hlen]
    rw [this, List.take_left]
  have hdrop : (r.flatMap enc32 ++ t).drop (4 * 128) = t := by
    have : (4 : ℕ) * 128 = (r.flatMap enc32).length := by rw [hlen]
    rw [this, List.drop_left]
  rw [htake, hdrop, decodeWords_flatMap r hx]

/-- The loop accepts any sequence of well-formed records followed by at most
3 trailing bytes (the stray bytes are silently treated as end-of-stream). -/
lemma readVecsLoop_append_ok (recs : List (List ℕ)) (tail : List ℕ)
    (hlen : ∀ r ∈ recs, r.length = 128)
    (hval : ∀ r ∈ recs, ∀ x ∈ r, x < 2 ^ 32)
    (htail : tail.length < 4) :
    readVecsLoop 128 (recs.flatMap encRec ++ tail) = .ok recs := by
  induction recs with
  | nil => simpa using readVecsLoop_short 128 tail htail
  | cons r t ih =>
    have h1 : r.length = 128 := hlen r (by simp)
    have h2 : ∀ x ∈ r, x < 2 ^ 32 := hval r (by simp)
    rw [List.flatMap_cons, List.append_assoc, readVecsLoop_cons r _ h1 h2,
      ih (fun s hs => hlen s (by simp [hs])) (fun s hs => hval s (by simp [hs]))]
    rfl

/-- The loop fails with the truncation IO error when, after any number of
well-formed records, a full 128-header arrives but fewer than 512 payload
bytes remain. -/
lemma readVecsLoop_truncated (recs : List (List ℕ)) (short : List ℕ)
    (hlen : ∀ r ∈ recs, r.length = 128)
    (hval : ∀ r ∈ recs, ∀ x ∈ r, x < 2 ^ 32)
    (hshort : short.length < 512) :
    readVecsLoop 128 (recs.flatMap encRec ++ (enc32 128 ++ short)) =
      .error .ioUnexpectedEof := by
  induction recs with
  | nil =>
    simp only [List.flatMap_nil, List.nil_append, enc32_128]
    rw [show ([128, 0, 0, 0] : List ℕ) ++ short = 128 :: 0 :: 0 :: 0 :: short by simp,
      readVecsLoop]
    have h1 : ¬ (u32le 128 0 0 0 ≠ 128) := by simp [u32le_128]
    rw [if_neg h1, if_neg (by omega)]
  | cons r t ih =>
    have h1 : r.length = 128 := hlen r (by simp)
    have h2 : ∀ x ∈ r, x < 2 ^ 32 := hval r (by simp)
    rw [List.flatMap_cons, List.append_assoc, readVecsLoop_cons r _ h1 h2,
      ih (fun s hs => hlen s (by simp [hs])) (fun s hs => hval s (by simp [hs]))]
    rfl

/-- Fewer than 4 bytes in the whole stream: the very first header read hits
end-of-stream, and this time the `?` operator propagates the IO error
(only the loop treats `UnexpectedEof` as a clean break). -/
lemma read_fvecs_short (b : List ℕ) (h : b.length < 4) :
    read_fvecs b = .error .ioUnexpectedEof := by
  match b with
  | [] => simp [read_fvecs]
  | [b0] => simp [read_fvecs]
  | [b0, b1] => simp [read_fvecs]
  | [b0, b1, b2] => simp [read_fvecs]
  | b0 :: b1 :: b2 :: b3 :: rest => simp at h; omega

/-- Unfolding `read_fvecs` over the first well-formed record. -/
lemma read_fvecs_cons (r : List ℕ) (t : List ℕ)
    (hr : r.length = 128) (hx : ∀ x ∈ r, x < 2 ^ 32) :
    read_fvecs (encRec r ++ t) = (readVecsLoop 128 t).map (r :: ·) := by
  have hlen : (r.flatMap enc32).length = 512 := by
    rw [flatMap_enc32_length, hr]
  have hform : encRec r ++ t = 128 :: 0 :: 0 :: 0 :: (r.flatMap enc32 ++ t) := by
    simp [encRec, enc32_128]
  rw [hform, read_fvecs]
  have h1 : ¬ (u32le 128 0 0 0 ≠ 128) := by simp [u32le_128]
  rw [if_neg h1]
  have h2 : 4 * 128 ≤ (r.flatMap enc32 ++ t).length := by
    simp [hlen]
  rw [if_pos h2]
  have htake : (r.flatMap enc32 ++ t).take (4 * 128) = r.flatMap enc32 := by
    have h4 : (4 : ℕ) * 128 = (r.flatMap enc32).length := by rw [hlen]
    rw [h4, List.take_left]
  have hdrop : (r.flatMap enc32 ++ t).drop (4 * 128) = t := by
    have h4 : (4 : ℕ) * 128 = (r.flatMap enc32).length := by rw [hlen]
    rw [h4, List.drop_left]
  rw [htake, hdrop, decodeWords_flatMap r hx]

/-- A nonempty sequence of well-formed 128-dimension records, followed by at
most 3 stray bytes, parses successfully into exactly those records. -/
lemma read_fvecs_append_ok (recs : List (List ℕ)) (tail : List ℕ)
    (hne : recs ≠ [])
    (hlen : ∀ r ∈ recs, r.length = 128)
    (hval : ∀ r ∈ recs, ∀ x ∈ r, x < 2 ^ 32)
    (htail : tail.length < 4) :
    read_fvecs (recs.flatMap encRec ++ tail) = .ok recs := by
  match recs with
  | [] => exact absurd rfl hne
  | r :: t =>
    have h1 : r.length = 128 := hlen r (by simp)
    have h2 : ∀ x ∈ r, x < 2 ^ 32 := hval r (by simp)
    rw [List.flatMap_cons, List.append_assoc, read_fvecs_cons r _ h1 h2,
      readVecsLoop_append_ok t tail (fun s hs => hlen s (by simp [hs]))
        (fun s hs => hval s (by simp [hs])) htail]
    rfl

/-- After any number of well-formed records, a complete 128-header followed
by fewer than 512 bytes of payload makes the whole parse fail with the
truncation IO error. -/
lemma read_fvecs_truncated (recs : List (List ℕ)) (short : List ℕ)
    (hlen : ∀ r ∈ recs, r.length = 128)
    (hval : ∀ r ∈ recs, ∀ x ∈ r, x < 2 ^ 32)
    (hshort : short.length < 512) :
    read_fvecs (recs.flatMap encRec ++ (enc32 128 ++ short)) =
      .error .ioUnexpectedEof := by
  match recs with
  | [] =>
    simp only [List.flatMap_nil, List.nil_append, enc32_128]
    rw [show ([128, 0, 0, 0] : List ℕ) ++ short = 128 :: 0 :: 0 :: 0 :: short by simp,
      read_fvecs]
    have h1 : ¬ (u32le 128 0 0 0 ≠ 128) := by simp [u32le_128]
    rw [if_neg h1, if_neg (by omega)]
  | r :: t =>
    have h1 : r.length = 128 := hlen r (by simp)
    have h2 : ∀ x ∈ r, x < 2 ^ 32 := hval r (by simp)
    rw [List.flatMap_cons, List.append_assoc, read_fvecs_cons r _ h1 h2,
      readVecsLoop_truncated t short (fun s hs => hlen s (by simp [hs]))
        (fun s hs => hval s (by simp [hs])) hshort]
    rfl

lemma wordAt_add (l : List ℕ) (a b : ℕ) : wordAt l (a + b) = wordAt (l.drop a) b := by
  simp [wordAt, List.drop_drop, Nat.add_comm]

lemma wordAt_append (l1 l2 : List ℕ) (m : ℕ) :
    wordAt (l1 ++ l2) (l1.length + m) = wordAt l2 m := by
  rw [wordAt_add, List.drop_left]

lemma wordAt_enc32 (x : ℕ) (Y : List ℕ) (hx : x < 2 ^ 32) :
    wordAt (enc32 x ++ Y) 0 = x := by
  simp only [enc32, wordAt, List.drop_zero, List.cons_append, List.getD_cons_zero,
    List.getD_cons_succ]
  exact u32le_enc32 x hx

lemma wordAt_flatMap_enc32 (r : List ℕ) (X : List ℕ) (j : ℕ)
    (hx : ∀ x ∈ r, x < 2 ^ 32) (hj : j < r.length) :
    wordAt (r.flatMap enc32 ++ X) (4 * j) = r.getD j 0 := by
  induction r generalizing j X with
  | nil => simp at hj
  | cons x rt ih =>
    cases j with
    | zero =>
      rw [List.flatMap_cons, List.append_assoc, Nat.mul_zero,
        wordAt_enc32 x _ (hx x (by simp))]
      rfl
    | succ n =>
      have h4 : 4 * (n + 1) = (enc32 x).length + 4 * n := by
        rw [enc32_length]; ring
      rw [List.flatMap_cons, List.append_assoc, h4, wordAt_append,
        ih _ _ (fun y hy => hx y (by simp [hy])) (by simpa using hj)]
      rfl

lemma wordAt_encRec (r : List ℕ) (X : List ℕ) (j : ℕ)
    (hx : ∀ x ∈ r, x < 2 ^ 32) (hj : j < r.length) :
    wordAt (encRec r ++ X) (4 + 4 * j) = r.getD j 0 := by
  have h4 : 4 + 4 * j = (enc32 (128 : ℕ)).length + 4 * j := by rw [enc32_length]
  rw [encRec, List.append_assoc, h4, wordAt_append, wordAt_flatMap_enc32 r X j hx hj]

/-- Vector `i`'s component `j` sits at byte offset `i·516 + 4 + 4·j` of the
encoded stream. -/
lemma wordAt_flatMap_encRec (recs : List (List ℕ)) (i j : ℕ)
    (hlen : ∀ r ∈ recs, r.length = 128)
    (hval : ∀ r ∈ recs, ∀ x ∈ r, x < 2 ^ 32)
    (hi : i < recs.length) (hj : j < 128) :
    wordAt (recs.flatMap encRec) (i * 516 + (4 + 4 * j)) =
      (recs.getD i []).getD j 0 := by
  induction recs generalizing i with
  | nil => simp at hi
  | cons r t ih =>
    have h1 : r.length = 128 := hlen r (by simp)
    have h2 : ∀ x ∈ r, x < 2 ^ 32 := hval r (by simp)
    cases i with
    | zero =>
      rw [List.flatMap_cons, Nat.zero_mul, Nat.zero_add,
        wordAt_encRec r _ j h2 (by omega)]
      rfl
    | succ n =>
      have h4 : (n + 1) * 516 + (4 + 4 * j) =
          (encRec r).length + (n * 516 + (4 + 4 * j)) := by
        rw [encRec_length r h1]; ring
      rw [List.flatMap_cons, h4, wordAt_append,
        ih n (fun s hs => hlen s (by simp [hs])) (fun s hs => hval s (by simp [hs]))
          (by simpa using hi)]
      rfl

lemma replicate_len_hyp : ∀ r ∈ [List.replicate 128 (0 : ℕ)], r.length = 128 := by
  intro r hr
  simp only [List.mem_singleton] at hr
  simp [hr]

lemma replicate_val_hyp : ∀ r ∈ [List.replicate 128 (0 : ℕ)], ∀ x ∈ r, x < 2 ^ 32 := by
  intro r hr x hx
  simp only [List.mem_singleton] at hr
  subst hr
  have := List.eq_of_mem_replicate hx
  omega

/-- C1 (counterexample): a single well-formed record of dimension 1 (header
1, one float) is rejected with `InvalidData` instead of parsed, because
`read_fvecs` demands the compiled-in dimension 128; the claim's "for any D"
is false. -/
theorem read_fvecs_dim_one_rejected :
    read_fvecs (enc32 1 ++ enc32 0) = .error .invalidData := by
  rfl

/-- C1 (amended): for every byte stream consisting of N ≥ 1 well-formed
records whose declared dimension is exactly 128 (the only dimension
`read_fvecs` accepts), parsing succeeds and returns N vectors of dimension
128 in which vector i's component j equals the 32-bit little-endian float
word at byte offset i·(4+4·128)+4+4·j. -/
theorem read_fvecs_wellformed_ok (recs : List (List ℕ))
    (hne : recs ≠ [])
    (hlen : ∀ r ∈ recs, r.length = 128)
    (hval : ∀ r ∈ recs, ∀ x ∈ r, x < 2 ^ 32) :
    read_fvecs (recs.flatMap encRec) = .ok recs ∧
    ∀ i j, i < recs.length → j < 128 →
      (recs.getD i []).getD j 0 =
        wordAt (recs.flatMap encRec) (i * (4 + 4 * 128) + 4 + 4 * j) := by
  constructor
  · have h := read_fvecs_append_ok recs [] hne hlen hval (by simp)
    simpa using h
  · intro i j hi hj
    have harith : i * (4 + 4 * 128) + 4 + 4 * j = i * 516 + (4 + 4 * j) := by ring
    rw [harith, wordAt_flatMap_encRec recs i j hlen hval hi hj]

theorem read_fvecs_wellformed_ok_witness :
    ([List.replicate 128 (0 : ℕ)] ≠ ([] : List (List ℕ))) ∧
    read_fvecs (([List.replicate 128 (0 : ℕ)]).flatMap encRec) =
      .ok [List.replicate 128 (0 : ℕ)] :=
  ⟨by simp,
    (read_fvecs_wellformed_ok [List.replicate 128 0] (by simp)
      replicate_len_hyp replicate_val_hyp).1⟩

/-- C6 (counterexample): a stream of one complete record followed by a
single stray byte ends mid-header, which the claim says must fail with a
truncation error; instead `read_fvecs` succeeds and silently drops the
stray byte. -/
theorem read_fvecs_midheader_accepted :
    read_fvecs (encRec (List.replicate 128 0) ++ [7]) =
      .ok [List.replicate 128 0] := by
  have h := read_fvecs_append_ok [List.replicate 128 0] [7] (by simp)
    replicate_len_hyp replicate_val_hyp (by simp)
  simpa using h

/-- C6 (amended): end-of-stream inside any record's float payload —
including the first record's (for instance a lone 128-header followed by
only 50 floats' worth of bytes) — fails with the propagated
`UnexpectedEof` IO error, and end-of-stream before or inside the very
first header (a stream shorter than 4 bytes, including the empty stream)
also fails with that IO error; but end-of-stream inside the 4-byte header
of a record after the first (0 to 3 stray trailing bytes behind at least
one complete record) is treated as a clean end-of-stream and parsing
succeeds with all fully-read vectors, silently dropping the stray
bytes. -/
theorem read_fvecs_eof_behavior (recs : List (List ℕ)) (tail short junk : List ℕ)
    (hlen : ∀ r ∈ recs, r.length = 128)
    (hval : ∀ r ∈ recs, ∀ x ∈ r, x < 2 ^ 32)
    (htail : tail.length < 4) (hshort : short.length < 512)
    (hjunk : junk.length < 4) :
    (recs ≠ [] → read_fvecs (recs.flatMap encRec ++ tail) = .ok recs) ∧
    read_fvecs (recs.flatMap encRec ++ (enc32 128 ++ short)) =
      .error .ioUnexpectedEof ∧
    read_fvecs junk = .error .ioUnexpectedEof :=
  ⟨fun hne => read_fvecs_append_ok recs tail hne hlen hval htail,
   read_fvecs_truncated recs short hlen hval hshort,
   read_fvecs_short junk hjunk⟩

theorem read_fvecs_eof_behavior_witness :
    (([7] : List ℕ).length < 4 ∧ (List.replicate 200 (0 : ℕ)).length < 512) ∧
    read_fvecs (([List.replicate 128 (0 : ℕ)]).flatMap encRec ++ [7]) =
      .ok [List.replicate 128 (0 : ℕ)] ∧
    read_fvecs (enc32 128 ++ List.replicate 200 (0 : ℕ)) =
      .error .ioUnexpectedEof ∧
    read_fvecs [] = .error .ioUnexpectedEof := by
  have h1 := read_fvecs_eof_behavior [List.replicate 128 0] [7] [] []
    replicate_len_hyp replicate_val_hyp (by simp) (by simp) (by simp)
  have h2 := read_fvecs_eof_behavior [] [] (List.replicate 200 0) []
    (by simp) (by simp) (by simp) (by norm_num) (by simp)
  refine ⟨⟨by simp, by norm_num⟩, h1.1 (by simp), ?_, h1.2.2⟩
  simpa using h2.2.1

/-! ## The statistics engine (src/main.rs, `Stats::compute`) -/

/-- Division producing `none` when the divisor is zero: models a float
division whose result is non-finite (NaN for the 0/0 cases arising below),
while a nonzero divisor gives the exact rational quotient. -/
def divF (a b : ℚ) : Option ℚ := if b = 0 then none else some (a / b)

/-- Model of `flechasdb::linalg::dot` over exact rationals: the sum of
componentwise products. -/
def dotQ (a b : List ℚ) : ℚ := (List.zipWith (· * ·) a b).sum

/-- The ascending in-place sort performed by
`records.sort_by(|l, r| l.partial_cmp(r).unwrap())` on finite values. -/
def sortAsc (l : List ℚ) : List ℚ := List.insertionSort (· ≤ ·) l

/-- The `Stats` record (src/main.rs lines 614-623).  All fields share the
numeric type; `std` is `Option ℚ` because the Bessel division by n−1 is
0/0 for a single sample, a NaN (`none`) in the f64 it models. -/
structure StatsRes where
  mean : ℚ
  std : Option ℚ
  median : ℚ
  min : ℚ
  max : ℚ
  q1 : ℚ
  q3 : ℚ
deriving DecidableEq

/-- Model of `Stats::compute` (src/main.rs lines 626-652): sort ascending,
mean = sum/n over the sorted buffer, variance = (Σx² − n·mean²)/(n−1),
std = sqrt(variance), and nearest-rank median/quartiles/extrema by direct
indexing.  `sq` models the `Sqrt` capability of the numeric type.  The
`none` result models the panic of indexing an empty series (n = 0). -/
def Stats.compute (sq : ℚ → ℚ) (records : List ℚ) : Option StatsRes :=
  if records.length = 0 then none
  else
    let sorted := sortAsc records
    let n : ℚ := (records.length : ℚ)
    let s : ℚ := sorted.sum
    let mean : ℚ := s / n
    let ssq : ℚ := dotQ sorted sorted
    some {
      mean := s / n
      std := (divF (ssq - n * mean * mean) ((records.length - 1 : ℕ) : ℚ)).map sq
      median := sorted.getD (records.length / 2) 0
      min := sorted.getD 0 0
      max := sorted.getD (records.length - 1) 0
      q1 := sorted.getD (records.length / 4) 0
      q3 := sorted.getD (records.length * 3 / 4) 0 }

lemma zipWith_mul_self (l : List ℚ) :
    List.zipWith (· * ·) l l = l.map (fun x => x * x) := by
  induction l with
  | nil => rfl
  | cons x t ih => simp [ih]

lemma dotQ_self_perm (l1 l2 : List ℚ) (h : l1.Perm l2) : dotQ l1 l1 = dotQ l2 l2 := by
  rw [dotQ, dotQ, zipWith_mul_self, zipWith_mul_self]
  exact (h.map (fun x => x * x)).sum_eq

lemma sortAsc_perm (l : List ℚ) : (sortAsc l).Perm l := List.perm_insertionSort _ l

lemma sortAsc_sum (l : List ℚ) : (sortAsc l).sum = l.sum := (sortAsc_perm l).sum_eq

/-- C3: for every non-empty sample series, `Stats::compute` sorts ascending
and returns mean = sum/n, std = sqrt((Σx² − n·mean²)/(n−1)) (stated for
n ≥ 2, where the Bessel divisor is nonzero), median/q1/q3 as the sorted
elements at indices ⌊n/2⌋, ⌊n/4⌋, ⌊3n/4⌋ with no interpolation, and
min/max as the first/last sorted elements; in particular on [1,2,3,4] it
yields mean 5/2, median 3, q1 2, q3 4, min 1, max 4. -/
theorem stats_compute_spec (sq : ℚ → ℚ) (rs : List ℚ) (h : rs ≠ []) :
    (∃ out, Stats.compute sq rs = some out ∧
      out.mean = rs.sum / (rs.length : ℚ) ∧
      (2 ≤ rs.length →
        out.std = some (sq ((dotQ rs rs -
          (rs.length : ℚ) * (rs.sum / (rs.length : ℚ)) * (rs.sum / (rs.length : ℚ))) /
            ((rs.length : ℚ) - 1)))) ∧
      (sortAsc rs).Sorted (· ≤ ·) ∧
      out.median = (sortAsc rs).getD (rs.length / 2) 0 ∧
      out.q1 = (sortAsc rs).getD (rs.length / 4) 0 ∧
      out.q3 = (sortAsc rs).getD (rs.length * 3 / 4) 0 ∧
      out.min = (sortAsc rs).getD 0 0 ∧
      out.max = (sortAsc rs).getD (rs.length - 1) 0) ∧
    Stats.compute sq [1, 2, 3, 4] = some ⟨5/2, some (sq (5/3)), 3, 1, 4, 2, 4⟩ := by
  constructor
  · have hlen : rs.length ≠ 0 := by simpa using h
    rw [Stats.compute, if_neg hlen]
    refine ⟨_, rfl, ?_, ?_, List.sorted_insertionSort _ rs, rfl, rfl, rfl, rfl, rfl⟩
    · simp only [sortAsc_sum]
    · intro h2
      have hcast : ((rs.length - 1 : ℕ) : ℚ) = (rs.length : ℚ) - 1 := by
        have h1 : 1 ≤ rs.length := by omega
        push_cast [h1]
        ring
      have hne0 : ((rs.length : ℚ) - 1) ≠ 0 := by
        have : (2 : ℚ) ≤ (rs.length : ℚ) := by exact_mod_cast h2
        intro hc
        nlinarith
      simp only [sortAsc_sum, dotQ_self_perm _ _ (sortAsc_perm rs), hcast, divF,
        if_neg hne0]
      rfl
  · have hsort : sortAsc [1, 2, 3, 4] = ([1, 2, 3, 4] : List ℚ) := by decide
    rw [Stats.compute, if_neg (by simp)]
    simp only [hsort]
    norm_num [dotQ, divF]

theorem stats_compute_spec_witness :
    (([1, 2, 3, 4] : List ℚ) ≠ []) ∧
    Stats.compute (fun x : ℚ => x) [1, 2, 3, 4] =
      some ⟨5/2, some (5/3 : ℚ), 3, 1, 4, 2, 4⟩ :=
  ⟨by simp, (stats_compute_spec (fun x : ℚ => x) [1, 2, 3, 4] (by simp)).2⟩

/-- C7 (counterexample): computing the statistics of the single-sample
series [5] does not fail: `Stats::compute` silently returns a full summary
whose standard deviation is the NaN produced by dividing by n−1 = 0
(modelled as `none`), contradicting the claimed `InsufficientSamples`
error. -/
theorem stats_single_sample_silent :
    Stats.compute (fun x : ℚ => x) [5] = some ⟨5, none, 5, 5, 5, 5, 5⟩ := by
  have hsort : sortAsc [5] = ([5] : List ℚ) := rfl
  rw [Stats.compute, if_neg (by simp)]
  simp only [hsort]
  norm_num [dotQ, divF]

/-- C7 (amended): with exactly one sample `Stats::compute` returns a
summary whose std is NaN (0/0, modelled `none`) instead of failing with an
error; with zero samples it panics (modelled `none` result); all other
statistics are defined for every series of at least 1 sample, and std is a
finite value exactly when there are at least 2 samples. -/
theorem stats_std_behavior (sq : ℚ → ℚ) (rs : List ℚ) :
    Stats.compute sq [] = none ∧
    (rs.length = 1 → ∃ out, Stats.compute sq rs = some out ∧ out.std = none) ∧
    (2 ≤ rs.length → ∃ out v, Stats.compute sq rs = some out ∧ out.std = some v) := by
  refine ⟨by simp [Stats.compute], ?_, ?_⟩
  · intro h1
    rw [Stats.compute, if_neg (by omega)]
    exact ⟨_, rfl, by simp [h1, divF]⟩
  · intro h2
    rw [Stats.compute, if_neg (by omega)]
    have hd : ((rs.length - 1 : ℕ) : ℚ) ≠ 0 := by
      rw [Nat.cast_ne_zero]
      omega
    refine ⟨_, sq ((dotQ (sortAsc rs) (sortAsc rs) -
      (rs.length : ℚ) * ((sortAsc rs).sum / (rs.length : ℚ)) *
        ((sortAsc rs).sum / (rs.length : ℚ))) / ((rs.length - 1 : ℕ) : ℚ)), rfl, ?_⟩
    simp only [divF, if_neg hd]
    rfl

theorem stats_std_behavior_witness :
    (∃ out, Stats.compute (fun x : ℚ => x) [5] = some out ∧ out.std = none) ∧
    (∃ out v, Stats.compute (fun x : ℚ => x) [5, 6] = some out ∧ out.std = some v) :=
  ⟨(stats_std_behavior (fun x : ℚ => x) [5]).2.1 rfl,
   (stats_std_behavior (fun x : ℚ => x) [5, 6]).2.2 (by simp)⟩

/-! ## The recall evaluator (src/main.rs, `calculate_recall`) -/

/-- Model of `calculate_recall` (src/main.rs lines 552-562).  The
`assert_eq!` on the two lengths is the `Except.error ()` case (a panic);
otherwise the result is the count of candidate identifiers appearing
anywhere in the reference sequence, divided by the candidate length (equal
to the reference length).  The `Option ℚ` payload is the returned f32:
`none` is the NaN produced by `0.0 / 0.0` on empty inputs. -/
def calculate_recall (reference_results results : List ℕ) : Except Unit (Option ℚ) :=
  if reference_results.length = results.length then
    .ok (divF ((results.countP (fun i => decide (i ∈ reference_results)) : ℕ) : ℚ)
      ((results.length : ℕ) : ℚ))
  else .error ()

/-- C4: on equal-length sequences with non-empty reference, the recall is
the number of candidate identifiers appearing anywhere in the reference
(set-based membership, position ignored) divided by the reference length;
it always lies in [0,1], and recall(A, A) = 1 for non-empty A. -/
theorem calculate_recall_spec (reference results : List ℕ)
    (hlen : reference.length = results.length) (hne : reference ≠ []) :
    (∃ v, calculate_recall reference results = .ok (some v) ∧
      v = ((results.countP (fun i => decide (i ∈ reference)) : ℕ) : ℚ) /
        ((reference.length : ℕ) : ℚ) ∧
      0 ≤ v ∧ v ≤ 1) ∧
    calculate_recall reference reference = .ok (some 1) := by
  have h0 : reference.length ≠ 0 := by simpa using hne
  have hq : ((results.length : ℕ) : ℚ) ≠ 0 := by
    rw [Nat.cast_ne_zero]
    omega
  constructor
  · rw [calculate_recall, if_pos hlen, divF, if_neg hq]
    refine ⟨_, rfl, by rw [hlen], ?_, ?_⟩
    · positivity
    · rw [div_le_one (by positivity)]
      exact_mod_cast results.countP_le_length _
  · have hcount : reference.countP (fun i => decide (i ∈ reference)) = reference.length := by
      rw [List.countP_eq_length]
      intro a ha
      simpa using ha
    have hq2 : ((reference.length : ℕ) : ℚ) ≠ 0 := by
      rw [Nat.cast_ne_zero]
      omega
    rw [calculate_recall, if_pos rfl, hcount, divF, if_neg hq2, div_self hq2]

theorem calculate_recall_spec_witness :
    (([3, 9] : List ℕ).length = ([9, 4] : List ℕ).length ∧ ([3, 9] : List ℕ) ≠ []) ∧
    (∃ v, calculate_recall [3, 9] [9, 4] = .ok (some v) ∧ v = 1 / 2 ∧ 0 ≤ v ∧ v ≤ 1) ∧
    calculate_recall [3, 9] [3, 9] = .ok (some 1) := by
  have h := calculate_recall_spec [3, 9] [9, 4] rfl (by simp)
  refine ⟨⟨rfl, by simp⟩, ?_, h.2⟩
  obtain ⟨v, h1, h2, h3, h4⟩ := h.1
  exact ⟨v, h1, by rw [h2]; norm_num, h3, h4⟩

/-- C8 (counterexample): on an empty reference and empty candidate the
evaluator does not fail: the assertion passes and it returns the NaN from
`0.0 / 0.0` (modelled `Except.ok none`) instead of an explicit error. -/
theorem calculate_recall_empty_returns_nan :
    calculate_recall [] [] = .ok none := by
  rw [calculate_recall, if_pos rfl, divF, if_pos (by norm_num)]

/-- C8 (amended): with an empty reference the evaluator never returns an
explicit error value: if the candidate is also empty the assertion passes
and it silently yields the NaN of 0.0/0.0 (modelled `none`); if the
candidate is non-empty the `assert_eq!` aborts the process (a panic, not a
returned error). -/
theorem calculate_recall_empty_behavior (results : List ℕ) :
    calculate_recall [] results =
      if results.isEmpty then .ok none else .error () := by
  match results with
  | [] =>
    show calculate_recall [] [] = .ok none
    rw [calculate_recall, if_pos rfl, divF, if_pos (by norm_num)]
  | r :: t =>
    rw [calculate_recall, if_neg (by simp)]
    rfl

/-! ## The brute-force search (src/main.rs, `flat_query`) -/

/-- A possibly-NaN f32: `some q` is a finite value (idealized as an exact
rational), `none` is NaN.  Every arithmetic operation with a NaN operand
yields NaN, as in IEEE 754. -/
abbrev FVal := Option ℚ

def fadd : FVal → FVal → FVal
  | some x, some y => some (x + y)
  | _, _ => none

def fsub : FVal → FVal → FVal
  | some x, some y => some (x - y)
  | _, _ => none

def fmul : FVal → FVal → FVal
  | some x, some y => some (x * y)
  | _, _ => none

/-- Strict `<` on f32: false whenever an operand is NaN (IEEE 754), the
boolean face of `partial_cmp` used by the bounded top-k structure. -/
def fltB : FVal → FVal → Bool
  | some x, some y => decide (x < y)
  | _, _ => false

/-- Non-strict comparator of the final `sort_by`: on finite values it is
the total order of the rationals.  A comparison involving NaN would panic
in the source (`unwrap` of the `None` returned by `partial_cmp`); the
model totalizes it to `false`, and no statement proved below ever reaches
that case. -/
def fleB : FVal → FVal → Bool
  | some x, some y => decide (x ≤ y)
  | _, _ => false

/-- Model of `flechasdb::linalg::subtract` writing into a preallocated
buffer: the componentwise difference. -/
def subtractF (a b : List FVal) : List FVal := List.zipWith fsub a b

/-- Model of `flechasdb::linalg::dot`: the sum of componentwise
products. -/
def dotF (a b : List FVal) : FVal := (List.zipWith fmul a b).foldl fadd (some 0)

/-- The squared Euclidean distance `dot(&buf, &buf)` computed by
`flat_query` for the vector at index `i`, where `buf = subtract(vs.get(i), qv)`. -/
def flatDist (vs : List (List FVal)) (qv : List FVal) (i : ℕ) : FVal :=
  dotF (subtractF (vs.getD i []) qv) (subtractF (vs.getD i []) qv)

/-- First maximal key of a buffer under the partial `<` of f32. -/
def maxKey : List (ℕ × FVal) → FVal
  | [] => none
  | p :: t => t.foldl (fun acc q => if fltB acc q.2 then q.2 else acc) p.2

/-- Replaces the first element carrying the given key. -/
def replaceFirstKey (key : FVal) (x : ℕ × FVal) : List (ℕ × FVal) → List (ℕ × FVal)
  | [] => []
  | p :: t => if p.2 = key then x :: t else p :: replaceFirstKey key x t

/-- Modelled from the spec: `flechasdb::nbest::NBestByKey` is an external
library type whose source is not part of this repository.  Spec §3
describes it (`BoundedTopK`) as a transient structure retaining at most k
(distance, identifier) pairs that always holds the k smallest distances
observed.  This model realizes it as a buffer that appends while below
capacity and, at capacity, replaces the first element holding a maximal
key whenever the incoming key is strictly smaller; the spec does not pin
down which element among equal keys survives, nor the buffer order. -/
def nbestPush (k : ℕ) (l : List (ℕ × FVal)) (x : ℕ × FVal) : List (ℕ × FVal) :=
  if l.length < k then l ++ [x]
  else if fltB x.2 (maxKey l) then replaceFirstKey (maxKey l) x l else l

/-- The scan loop of `flat_query`: push `(i, distance i)` for `i` in
`0..n` through the bounded top-k structure. -/
def nbestFold (f : ℕ → FVal) (k n : ℕ) : List (ℕ × FVal) :=
  (List.range n).foldl (fun acc i => nbestPush k acc (i, f i)) []

/-- One step of the stable insertion sort modelling the final
`sort_by(|l, r| l.1.partial_cmp(&r.1).unwrap())`. -/
def insertPair (x : ℕ × FVal) : List (ℕ × FVal) → List (ℕ × FVal)
  | [] => [x]
  | p :: t => if fleB x.2 p.2 then x :: p :: t else p :: insertPair x t

/-- Stable ascending sort of the retained pairs by distance key. -/
def sortPairs : List (ℕ × FVal) → List (ℕ × FVal)
  | [] => []
  | p :: t => insertPair p (sortPairs t)

/-- Model of `flat_query` (src/main.rs lines 535-549): for every stored
vector compute the squared distance to the query, push the
(identifier, distance) pair through `NBestByKey`, sort the retained pairs
ascending by distance, and return the identifiers. -/
def flat_query (vs : List (List FVal)) (qv : List FVal) (k : ℕ) : List ℕ :=
  (sortPairs (nbestFold (flatDist vs qv) k vs.length)).map Prod.fst

/-- The true squared Euclidean distance between rational vectors. -/
def sqDistQ (v q : List ℚ) : ℚ :=
  ((List.zipWith (· - ·) v q).map (fun x => x * x)).sum

/-- C9 (counterexample): on a one-vector set whose only distance is NaN,
`flat_query` neither reports a `NumericError` nor fails: its return type
has no error channel at all, and it returns the identifier of the
NaN-distance vector as a normal result. -/
theorem flat_query_nan_counterexample :
    flatDist [[none]] [some 0] 0 = none ∧
    flat_query [[none]] [some 0] 1 = [0] :=
  ⟨rfl, rfl⟩

/-- C9 (amended): a NaN squared distance is not reported as an error:
`flat_query` returns a plain identifier list with no error channel, and a
NaN distance flows through silently whenever no comparison against it
occurs (here: a single-vector set, where the pair is appended below
capacity and the singleton sort performs no comparison); a comparison that
does reach a NaN panics in the `unwrap` inside the sort comparator rather
than producing a `NumericError`. -/
theorem flat_query_nan_behavior (q : ℚ) :
    flatDist [[none]] [some q] 0 = none ∧
    flat_query [[none]] [some q] 1 = [0] :=
  ⟨rfl, rfl⟩

lemma zipWith_fsub_map (a b : List ℚ) :
    List.zipWith fsub (a.map some) (b.map some) = (List.zipWith (· - ·) a b).map some := by
  induction a generalizing b with
  | nil => simp
  | cons x t ih =>
    cases b with
    | nil => simp
    | cons y u => simp [fsub, ih]

lemma zipWith_fmul_map (a b : List ℚ) :
    List.zipWith fmul (a.map some) (b.map some) = (List.zipWith (· * ·) a b).map some := by
  induction a generalizing b with
  | nil => simp
  | cons x t ih =>
    cases b with
    | nil => simp
    | cons y u => simp [fmul, ih]

lemma foldl_fadd_map (l : List ℚ) (c : ℚ) :
    (l.map some).foldl fadd (some c) = some (c + l.sum) := by
  induction l generalizing c with
  | nil => simp
  | cons x t ih =>
    simp only [List.map_cons, List.foldl_cons, fadd, List.sum_cons, ih]
    rw [Option.some.injEq]
    ring

lemma dotF_map_self (d : List ℚ) :
    dotF (d.map some) (d.map some) = some ((d.map (fun x => x * x)).sum) := by
  rw [dotF, zipWith_fmul_map, zipWith_mul_self, foldl_fadd_map, zero_add]

lemma getD_map_some (vs : List (List ℚ)) (i : ℕ) :
    (vs.map (List.map some)).getD i [] = (vs.getD i []).map some := by
  induction vs generalizing i with
  | nil => simp
  | cons v t ih =>
    cases i with
    | zero => simp
    | succ n =>
      show (List.map (List.map some) t).getD n [] = List.map some (t.getD n [])
      exact ih n

/-- With exact arithmetic, the distance `flat_query` computes for index `i`
is the true squared Euclidean distance. -/
lemma flatDist_map (vs : List (List ℚ)) (qv : List ℚ) (i : ℕ) :
    flatDist (vs.map (List.map some)) (qv.map some) i =
      some (sqDistQ (vs.getD i []) qv) := by
  rw [flatDist, getD_map_some, subtractF, zipWith_fsub_map, dotF_map_self, sqDistQ]

lemma replaceFirstKey_length (key : FVal) (x : ℕ × FVal) (l : List (ℕ × FVal)) :
    (replaceFirstKey key x l).length = l.length := by
  induction l with
  | nil => rfl
  | cons p t ih =>
    rw [replaceFirstKey]
    by_cases h : p.2 = key
    · simp [h]
    · simp [h, ih]

lemma replaceFirstKey_mem (key : FVal) (x : ℕ × FVal) (l : List (ℕ × FVal)) :
    ∀ p ∈ replaceFirstKey key x l, p = x ∨ p ∈ l := by
  induction l with
  | nil => simp [replaceFirstKey]
  | cons q t ih =>
    intro p hp
    rw [replaceFirstKey] at hp
    by_cases h : q.2 = key
    · rw [if_pos h] at hp
      rcases List.mem_cons.mp hp with h1 | h1
      · exact Or.inl h1
      · exact Or.inr (List.mem_cons_of_mem _ h1)
    · rw [if_neg h] at hp
      rcases List.mem_cons.mp hp with h1 | h1
      · exact Or.inr (by simp [h1])
      · rcases ih p h1 with h2 | h2
        · exact Or.inl h2
        · exact Or.inr (by simp [h2])

lemma replaceFirstKey_fst_nodup (key : FVal) (x : ℕ × FVal) (l : List (ℕ × FVal))
    (hn : (l.map Prod.fst).Nodup) (hlt : ∀ p ∈ l, p.1 < x.1) :
    ((replaceFirstKey key x l).map Prod.fst).Nodup := by
  induction l with
  | nil => simp [replaceFirstKey]
  | cons q t ih =>
    simp only [List.map_cons, List.nodup_cons] at hn
    rw [replaceFirstKey]
    by_cases h : q.2 = key
    · rw [if_pos h]
      simp only [List.map_cons, List.nodup_cons]
      refine ⟨?_, hn.2⟩
      intro hmem
      obtain ⟨p, hp, hpe⟩ := List.mem_map.mp hmem
      have := hlt p (List.mem_cons_of_mem _ hp)
      omega
    · rw [if_neg h]
      simp only [List.map_cons, List.nodup_cons]
      refine ⟨?_, ih hn.2 (fun p hp => hlt p (List.mem_cons_of_mem _ hp))⟩
      intro hmem
      obtain ⟨p, hp, hpe⟩ := List.mem_map.mp hmem
      rcases replaceFirstKey_mem key x t p hp with h2 | h2
      · have := hlt q (List.mem_cons_self _ _)
        rw [h2] at hpe
        omega
      · exact hn.1 (hpe ▸ List.mem_map_of_mem Prod.fst h2)

lemma nbestFold_zero (f : ℕ → FVal) (k : ℕ) : nbestFold f k 0 = [] := rfl

lemma nbestFold_succ (f : ℕ → FVal) (k n : ℕ) :
    nbestFold f k (n + 1) = nbestPush k (nbestFold f k n) (n, f n) := by
  rw [nbestFold, nbestFold, List.range_succ, List.foldl_append]
  rfl

/-- Invariant of the scan: the buffer holds `min k n` pairs, the
identifiers are distinct indices below `n`, and each pair carries the
distance of its own identifier. -/
lemma nbestFold_inv (f : ℕ → FVal) (k n : ℕ) :
    (nbestFold f k n).length = min k n ∧
    ((nbestFold f k n).map Prod.fst).Nodup ∧
    ∀ p ∈ nbestFold f k n, p.1 < n ∧ p.2 = f p.1 := by
  induction n with
  | zero => simp [nbestFold_zero]
  | succ m ih =>
    obtain ⟨hlen, hnd, hmem⟩ := ih
    rw [nbestFold_succ, nbestPush]
    by_cases hc : (nbestFold f k m).length < k
    · rw [if_pos hc]
      rw [hlen] at hc
      refine ⟨?_, ?_, ?_⟩
      · rw [List.length_append, hlen]
        simp only [List.length_singleton]
        omega
      · rw [List.map_append]
        refine List.Nodup.append hnd (List.nodup_singleton m) ?_
        intro a ha hb
        simp only [List.map_cons, List.map_nil, List.mem_singleton] at hb
        subst hb
        obtain ⟨p, hp, hpe⟩ := List.mem_map.mp ha
        have := (hmem p hp).1
        omega
      · intro p hp
        rcases List.mem_append.mp hp with h1 | h1
        · have h2 := hmem p h1
          exact ⟨by omega, h2.2⟩
        · simp only [List.mem_singleton] at h1
          subst h1
          exact ⟨by omega, rfl⟩
    · rw [if_neg hc]
      rw [hlen] at hc
      by_cases hf : fltB (m, f m).2 (maxKey (nbestFold f k m)) = true
      · rw [if_pos hf]
        refine ⟨?_, ?_, ?_⟩
        · rw [replaceFirstKey_length, hlen]
          omega
        · exact replaceFirstKey_fst_nodup _ _ _ hnd (fun p hp => (hmem p hp).1)
        · intro p hp
          rcases replaceFirstKey_mem _ _ _ p hp with h1 | h1
          · subst h1
            exact ⟨by omega, rfl⟩
          · have h2 := hmem p h1
            exact ⟨by omega, h2.2⟩
      · rw [if_neg hf]
        refine ⟨by rw [hlen]; omega, hnd, ?_⟩
        intro p hp
        have h2 := hmem p hp
        exact ⟨by omega, h2.2⟩

lemma insertPair_perm (x : ℕ × FVal) (l : List (ℕ × FVal)) :
    (insertPair x l).Perm (x :: l) := by
  induction l with
  | nil => exact List.Perm.refl _
  | cons p t ih =>
    rw [insertPair]
    by_cases h : fleB x.2 p.2 = true
    · rw [if_pos h]
    · rw [if_neg h]
      exact (ih.cons p).trans (List.Perm.swap x p t)

lemma sortPairs_perm (l : List (ℕ × FVal)) : (sortPairs l).Perm l := by
  induction l with
  | nil => exact List.Perm.refl _
  | cons p t ih =>
    rw [sortPairs]
    exact (insertPair_perm p _).trans (ih.cons p)

lemma fleB_trans_some (a b c : FVal)
    (ha : ∃ x, a = some x) (hb : ∃ x, b = some x) (hc : ∃ x, c = some x)
    (hab : fleB a b = true) (hbc : fleB b c = true) : fleB a c = true := by
  obtain ⟨x, rfl⟩ := ha
  obtain ⟨y, rfl⟩ := hb
  obtain ⟨z, rfl⟩ := hc
  simp only [fleB, decide_eq_true_eq] at hab hbc ⊢
  exact hab.trans hbc

lemma fleB_not_le (a b : FVal)
    (ha : ∃ x, a = some x) (hb : ∃ x, b = some x)
    (h : ¬ fleB a b = true) : fleB b a = true := by
  obtain ⟨x, rfl⟩ := ha
  obtain ⟨y, rfl⟩ := hb
  simp only [fleB, decide_eq_true_eq] at h ⊢
  exact le_of_not_le h

lemma insertPair_pairwise (x : ℕ × FVal) (l : List (ℕ × FVal))
    (hx : ∃ a, x.2 = some a) (hl : ∀ p ∈ l, ∃ a, p.2 = some a)
    (hs : l.Pairwise (fun p q => fleB p.2 q.2 = true)) :
    (insertPair x l).Pairwise (fun p q => fleB p.2 q.2 = true) := by
  induction l with
  | nil => simp [insertPair]
  | cons p t ih =>
    rw [List.pairwise_cons] at hs
    rw [insertPair]
    by_cases h : fleB x.2 p.2 = true
    · rw [if_pos h]
      rw [List.pairwise_cons]
      refine ⟨?_, List.pairwise_cons.mpr hs⟩
      intro q hq
      rcases List.mem_cons.mp hq with h1 | h1
      · rw [h1]
        exact h
      · exact fleB_trans_some _ _ _ hx (hl p (List.mem_cons_self _ _))
          (hl q (List.mem_cons_of_mem _ h1)) h (hs.1 q h1)
    · rw [if_neg h]
      rw [List.pairwise_cons]
      refine ⟨?_, ih (fun q hq => hl q (List.mem_cons_of_mem _ hq)) hs.2⟩
      intro q hq
      rcases List.mem_cons.mp ((insertPair_perm x t).mem_iff.mp hq) with h1 | h1
      · rw [h1]
        exact fleB_not_le _ _ hx (hl p (List.mem_cons_self _ _)) h
      · exact hs.1 q h1

lemma sortPairs_pairwise (l : List (ℕ × FVal))
    (hl : ∀ p ∈ l, ∃ a, p.2 = some a) :
    (sortPairs l).Pairwise (fun p q => fleB p.2 q.2 = true) := by
  induction l with
  | nil => simp [sortPairs]
  | cons p t ih =>
    rw [sortPairs]
    refine insertPair_pairwise p _ (hl p (List.mem_cons_self _ _)) ?_
      (ih (fun q hq => hl q (List.mem_cons_of_mem _ hq)))
    intro q hq
    exact hl q (List.mem_cons_of_mem _ ((sortPairs_perm t).mem_iff.mp hq))

/-- C2 (counterexample): on the set {[2], [1], [1]} with query [0] and
k = 2, identifiers 1 and 2 have equal squared distance, yet the search
returns [2, 1]: the tie is not broken by ascending identifier (identifier
2 replaced the evicted pair in place and the stable sort kept it first),
refuting the claimed ascending-identifier tie-break. -/
theorem flat_query_tie_counterexample :
    flat_query [[some 2], [some 1], [some 1]] [some 0] 2 = [2, 1] ∧
    flatDist [[some 2], [some 1], [some 1]] [some 0] 1 =
      flatDist [[some 2], [some 1], [some 1]] [some 0] 2 ∧
    ¬ List.Pairwise (fun i j => i < j) [2, 1] := by
  have hd0 : flatDist [[some 2], [some 1], [some 1]] [some 0] 0 = some 4 := by
    norm_num [flatDist, subtractF, dotF, fsub, fmul, fadd]
  have hd1 : flatDist [[some 2], [some 1], [some 1]] [some 0] 1 = some 1 := by
    norm_num [flatDist, subtractF, dotF, fsub, fmul, fadd]
  have hd2 : flatDist [[some 2], [some 1], [some 1]] [some 0] 2 = some 1 := by
    norm_num [flatDist, subtractF, dotF, fsub, fmul, fadd]
  refine ⟨?_, by rw [hd1, hd2], ?_⟩
  · rw [flat_query]
    have hr : List.range ([[some (2 : ℚ)], [some 1], [some 1]].length) = [0, 1, 2] := rfl
    rw [nbestFold, hr]
    simp only [List.foldl_cons, List.foldl_nil]
    rw [hd0, hd1, hd2]
    decide
  · intro h
    rw [List.pairwise_cons] at h
    exact absurd (h.1 1 (by simp)) (by omega)

/-- C2 (amended): for every vector set, query vector of the set's
dimension, and k ≥ 1, the brute-force search returns exactly
min(k, |vs|) distinct identifiers of stored vectors, sorted ascending by
true squared Euclidean distance to the query; the relative order of
identifiers with equal distances is unspecified (it depends on the
replacement and insertion order of the bounded top-k buffer), not
necessarily ascending. -/
theorem flat_query_spec_amended (vs : List (List ℚ)) (qv : List ℚ) (k : ℕ)
    (hk : 1 ≤ k) (hdim : ∀ v ∈ vs, v.length = qv.length) :
    (flat_query (vs.map (List.map some)) (qv.map some) k).length = min k vs.length ∧
    (flat_query (vs.map (List.map some)) (qv.map some) k).Nodup ∧
    (∀ i ∈ flat_query (vs.map (List.map some)) (qv.map some) k, i < vs.length) ∧
    (flat_query (vs.map (List.map some)) (qv.map some) k).Pairwise
      (fun i j => sqDistQ (vs.getD i []) qv ≤ sqDistQ (vs.getD j []) qv) := by
  have hn : (vs.map (List.map some)).length = vs.length := List.length_map _ _
  obtain ⟨hlen, hnd, hmem⟩ :=
    nbestFold_inv (flatDist (vs.map (List.map some)) (qv.map some)) k
      (vs.map (List.map some)).length
  have hperm := sortPairs_perm
    (nbestFold (flatDist (vs.map (List.map some)) (qv.map some)) k
      (vs.map (List.map some)).length)
  have hkey : ∀ p ∈ nbestFold (flatDist (vs.map (List.map some)) (qv.map some)) k
      (vs.map (List.map some)).length,
      p.2 = some (sqDistQ (vs.getD p.1 []) qv) := by
    intro p hp
    rw [(hmem p hp).2, flatDist_map]
  refine ⟨?_, ?_, ?_, ?_⟩
  · rw [flat_query, List.length_map, hperm.length_eq, hlen, hn]
  · rw [flat_query]
    exact (hperm.map Prod.fst).nodup_iff.mpr hnd
  · intro i hi
    rw [flat_query] at hi
    obtain ⟨p, hp, hpe⟩ := List.mem_map.mp hi
    have h1 := (hmem p (hperm.mem_iff.mp hp)).1
    rw [hn] at h1
    omega
  · rw [flat_query, List.pairwise_map]
    refine List.Pairwise.imp_of_mem ?_
      (sortPairs_pairwise _ (fun p hp => ⟨_, hkey p hp⟩))
    intro p q hp hq hR
    rw [hkey p (hperm.mem_iff.mp hp), hkey q (hperm.mem_iff.mp hq)] at hR
    simpa [fleB] using hR

theorem flat_query_spec_amended_witness :
    ((1 : ℕ) ≤ 1 ∧ ∀ v ∈ [[(1 : ℚ)], [0]], v.length = [(0 : ℚ)].length) ∧
    (flat_query ([[(1 : ℚ)], [0]].map (List.map some)) ([(0 : ℚ)].map some) 1).length =
      min 1 [[(1 : ℚ)], [0]].length := by
  have hdim : ∀ v ∈ [[(1 : ℚ)], [0]], v.length = [(0 : ℚ)].length := by
    intro v hv
    fin_cases hv <;> rfl
  exact ⟨⟨le_refl 1, hdim⟩,
    (flat_query_spec_amended [[(1 : ℚ)], [0]] [0] 1 (le_refl 1) hdim).1⟩

/-! ## The batch benchmarking harness (src/main.rs, `do_batch` and
`_do_batch_async`) -/

/-- The `flechasdb::db::AttributeValue` tagged union, with every non-u64
variant collapsed into one. -/
inductive AttributeValue where
  | uint64 (v : ℕ) : AttributeValue
  | otherVariant : AttributeValue
deriving DecidableEq

/-- Outcome of `result.get_attribute("datum_id")` on one result of the
external index: the lookup can fail, succeed with no attribute, or
succeed with a value. -/
abbrev AttrResult := Except Unit (Option AttributeValue)

/-- A deterministic model of the external `VectorIndex` collaborator:
`db.query(qv, k, nprobe)` returns the results, each reduced to its
`datum_id` attribute lookup, or fails. -/
abbrev DbQueryFn := List FVal → ℕ → ℕ → Except Unit (List AttrResult)

/-- Reasons a batch run aborts (all fatal; the process panics or the
`?` operator returns early in the source).  `statsPanic` is the panic of
`Stats::compute` on an empty series at `finish`. -/
inductive BatchErr where
  | tryIntoFailed : BatchErr
  | queryFailed : BatchErr
  | attrReadFailed : BatchErr
  | missingAttr : BatchErr
  | wrongAttrType : BatchErr
  | recallPanic : BatchErr
  | statsPanic : BatchErr
deriving DecidableEq

/-- The mapping of one query result to its `datum_id` (src/main.rs lines
334-348; lines 506-519 are the identical cooperative version): a failed
attribute read propagates, a missing attribute or a non-u64 value is an
`InvalidData` error. -/
def extractDatumId : AttrResult → Except BatchErr ℕ
  | .error _ => .error .attrReadFailed
  | .ok none => .error .missingAttr
  | .ok (some (.uint64 v)) => .ok v
  | .ok (some .otherVariant) => .error .wrongAttrType

/-- The per-query sample recorder (src/main.rs lines 565-588).  The recall
samples are f32 values that may be NaN, hence `Option ℚ`. -/
structure QueryStatsRecorder where
  k : ℕ
  nprobe : ℕ
  seconds : List ℚ
  flat_seconds : List ℚ
  recalls : List (Option ℚ)
deriving DecidableEq

/-- `QueryStatsRecorder::new` (pre-sizing is a performance detail). -/
def QueryStatsRecorder.new (k nprobe : ℕ) : QueryStatsRecorder :=
  ⟨k, nprobe, [], [], []⟩

/-- `QueryStatsRecorder::add_record`: push one sample onto each buffer. -/
def QueryStatsRecorder.add_record (r : QueryStatsRecorder)
    (seconds flat_seconds : ℚ) (rcl : Option ℚ) : QueryStatsRecorder :=
  { r with
    seconds := r.seconds ++ [seconds]
    flat_seconds := r.flat_seconds ++ [flat_seconds]
    recalls := r.recalls ++ [rcl] }

/-- The aggregated report `QueryStats` (src/main.rs lines 603-611). -/
structure QueryStats where
  k : ℕ
  nprobe : ℕ
  num_queries : ℕ
  seconds : StatsRes
  flat_seconds : StatsRes
  recalls : StatsRes
deriving DecidableEq

/-- `Stats::compute` over the recall series, whose f32 samples may be NaN:
a NaN sample would reach the panicking comparator of the sort (or poison
the summary), modelled as `none`; no theorem below reaches that case. -/
def computeRecallStats (sq : ℚ → ℚ) (l : List (Option ℚ)) : Option StatsRes :=
  match l.mapM id with
  | some vals => Stats.compute sq vals
  | none => none

/-- `QueryStatsRecorder::finish` (src/main.rs lines 590-599):
`num_queries` is the length of the `seconds` buffer, and each buffer is
summarized by `Stats::compute`. -/
def QueryStatsRecorder.finish (sq : ℚ → ℚ) (r : QueryStatsRecorder) :
    Option QueryStats :=
  match Stats.compute sq r.seconds, Stats.compute sq r.flat_seconds,
      computeRecallStats sq r.recalls with
  | some s, some f, some rc =>
    some ⟨r.k, r.nprobe, r.seconds.length, s, f, rc⟩
  | _, _, _ => none

/-- The query loop of the blocking `do_batch` (src/main.rs lines 324-358),
processing `count` queries starting at index `qi`: convert k and nprobe
(`try_into` fails on zero), run and time the indexed query, map every
result to its `datum_id` (failing the whole run on any error), run and
time the brute-force query, evaluate the recall (the length `assert_eq!`
panic aborts the run), and append exactly one sample to each buffer.
`timer` yields the two elapsed times measured for query `qi`, abstracting
the wall clock as a deterministic collaborator. -/
def batchLoopSync (dbq : DbQueryFn) (timer : ℕ → ℚ × ℚ)
    (vs qvs : List (List FVal)) (k nprobe : ℕ) :
    ℕ → ℕ → QueryStatsRecorder → Except BatchErr QueryStatsRecorder
  | _, 0, r => .ok r
  | qi, count + 1, r =>
    let qv := qvs.getD qi []
    if k = 0 ∨ nprobe = 0 then .error .tryIntoFailed
    else
      match dbq qv k nprobe with
      | .error _ => .error .queryFailed
      | .ok results =>
        match results.mapM extractDatumId with
        | .error e => .error e
        | .ok ids =>
          let query_time := (timer qi).1
          let flat_results := flat_query vs qv k
          let flat_query_time := (timer qi).2
          match calculate_recall flat_results ids with
          | .error _ => .error .recallPanic
          | .ok rcl =>
            batchLoopSync dbq timer vs qvs k nprobe (qi + 1) count
              (r.add_record query_time flat_query_time rcl)

/-- The query loop of the cooperative `_do_batch_async` (src/main.rs lines
496-530): the same sequential algorithm, with the indexed query awaited
and the per-result attribute lookups gathered by the order-preserving
`try_join_all`; the next query starts only after the previous query's
timing and recall evaluation complete. -/
def batchLoopAsync (dbq : DbQueryFn) (timer : ℕ → ℚ × ℚ)
    (vs qvs : List (List FVal)) (k nprobe : ℕ) :
    ℕ → ℕ → QueryStatsRecorder → Except BatchErr QueryStatsRecorder
  | _, 0, r => .ok r
  | qi, count + 1, r =>
    let qv := qvs.getD qi []
    if k = 0 ∨ nprobe = 0 then .error .tryIntoFailed
    else
      match dbq qv k nprobe with
      | .error _ => .error .queryFailed
      | .ok results =>
        match results.mapM extractDatumId with
        | .error e => .error e
        | .ok ids =>
          let query_time := (timer qi).1
          let flat_results := flat_query vs qv k
          let flat_query_time := (timer qi).2
          match calculate_recall flat_results ids with
          | .error _ => .error .recallPanic
          | .ok rcl =>
            batchLoopAsync dbq timer vs qvs k nprobe (qi + 1) count
              (r.add_record query_time flat_query_time rcl)

/-- Model of the blocking batch run `do_batch` (src/main.rs lines 295-402)
after the file I/O has produced `vs` and `qvs`: process
min(limit, |qvs|) queries (all of them without a limit) in ascending
order and assemble the report. -/
def do_batch (sq : ℚ → ℚ) (dbq : DbQueryFn) (timer : ℕ → ℚ × ℚ)
    (vs qvs : List (List FVal)) (k nprobe : ℕ) (limit : Option ℕ) :
    Except BatchErr QueryStats :=
  let num_queries := match limit with
    | some n => min n qvs.length
    | none => qvs.length
  match batchLoopSync dbq timer vs qvs k nprobe 0 num_queries
      (QueryStatsRecorder.new k nprobe) with
  | .error e => .error e
  | .ok r =>
    match r.finish sq with
    | some s => .ok s
    | none => .error .statsPanic

/-- Model of the cooperative batch run `_do_batch_async` (src/main.rs
lines 474-532) after the file I/O: identical orchestration around the
cooperative loop. -/
def _do_batch_async (sq : ℚ → ℚ) (dbq : DbQueryFn) (timer : ℕ → ℚ × ℚ)
    (vs qvs : List (List FVal)) (k nprobe : ℕ) (limit : Option ℕ) :
    Except BatchErr QueryStats :=
  let num_queries := match limit with
    | some n => min n qvs.length
    | none => qvs.length
  match batchLoopAsync dbq timer vs qvs k nprobe 0 num_queries
      (QueryStatsRecorder.new k nprobe) with
  | .error e => .error e
  | .ok r =>
    match r.finish sq with
    | some s => .ok s
    | none => .error .statsPanic

/-- The two loops compute the same function: the cooperative version only
changes how the indexed query and attribute lookups are awaited. -/
lemma batchLoop_agree (dbq : DbQueryFn) (timer : ℕ → ℚ × ℚ)
    (vs qvs : List (List FVal)) (k nprobe : ℕ) :
    ∀ count qi r, batchLoopAsync dbq timer vs qvs k nprobe qi count r =
      batchLoopSync dbq timer vs qvs k nprobe qi count r := by
  intro count
  induction count with
  | zero => intro qi r; rfl
  | succ m ih =>
    intro qi r
    rw [batchLoopAsync, batchLoopSync]
    simp only [ih]

/-- C5: given identical inputs — the same data and query vector sets, k,
nprobe, limit — and the same deterministic collaborators (the external
`VectorIndex` and the clock), the blocking batch run and the cooperative
batch run produce identical reports: the same k, nprobe, num_queries and
the same three statistics summaries. -/
theorem do_batch_async_equiv (sq : ℚ → ℚ) (dbq : DbQueryFn) (timer : ℕ → ℚ × ℚ)
    (vs qvs : List (List FVal)) (k nprobe : ℕ) (limit : Option ℕ) :
    _do_batch_async sq dbq timer vs qvs k nprobe limit =
      do_batch sq dbq timer vs qvs k nprobe limit := by
  simp only [_do_batch_async.eq_def, do_batch.eq_def, batchLoop_agree]

/-- Each successfully processed query appends exactly one sample to each
of the three buffers: a successful loop over `count` queries grows every
buffer by `count`. -/
lemma batchLoopSync_lengths (dbq : DbQueryFn) (timer : ℕ → ℚ × ℚ)
    (vs qvs : List (List FVal)) (k nprobe : ℕ) :
    ∀ count qi r r2,
      batchLoopSync dbq timer vs qvs k nprobe qi count r = .ok r2 →
      r2.seconds.length = r.seconds.length + count ∧
      r2.flat_seconds.length = r.flat_seconds.length + count ∧
      r2.recalls.length = r.recalls.length + count := by
  intro count
  induction count with
  | zero =>
    intro qi r r2 hrun
    rw [batchLoopSync] at hrun
    simp only [Except.ok.injEq] at hrun
    subst hrun
    simp
  | succ m ih =>
    intro qi r r2 hrun
    rw [batchLoopSync] at hrun
    split at hrun
    · exact absurd hrun (by simp)
    · split at hrun
      · exact absurd hrun (by simp)
      · split at hrun
        · exact absurd hrun (by simp)
        · dsimp only at hrun
          split at hrun
          · exact absurd hrun (by simp)
          · obtain ⟨h1, h2, h3⟩ := ih _ _ _ hrun
            simp only [QueryStatsRecorder.add_record, List.length_append,
              List.length_singleton] at h1 h2 h3
            exact ⟨by omega, by omega, by omega⟩

/-- C10: throughout a batch run the recorder's three sample buffers stay
in lockstep — every successfully processed query appends exactly one
sample to each, so equal lengths are preserved and grow by the number of
processed queries — and a finished report's `num_queries` equals that
common length, which is min(limit, |queries|) when a limit is supplied
and |queries| otherwise. -/
theorem recorder_invariant (sq : ℚ → ℚ) (dbq : DbQueryFn) (timer : ℕ → ℚ × ℚ)
    (vs qvs : List (List FVal)) (k nprobe : ℕ) (limit : Option ℕ) :
    (∀ count qi r r2,
      batchLoopSync dbq timer vs qvs k nprobe qi count r = .ok r2 →
      (r.seconds.length = r.flat_seconds.length ∧
       r.seconds.length = r.recalls.length) →
      (r2.seconds.length = r2.flat_seconds.length ∧
       r2.seconds.length = r2.recalls.length) ∧
      r2.seconds.length = r.seconds.length + count) ∧
    (∀ s, do_batch sq dbq timer vs qvs k nprobe limit = .ok s →
      s.num_queries = match limit with
        | some n => min n qvs.length
        | none => qvs.length) := by
  constructor
  · intro count qi r r2 hrun hinv
    obtain ⟨h1, h2, h3⟩ :=
      batchLoopSync_lengths dbq timer vs qvs k nprobe count qi r r2 hrun
    exact ⟨⟨by omega, by omega⟩, h1⟩
  · intro s hs
    simp only [do_batch.eq_def] at hs
    split at hs
    · exact absurd hs (by simp)
    · rename_i r heq
      split at hs
      · rename_i s0 hfin
        simp only [Except.ok.injEq] at hs
        subst hs
        have hlen := (batchLoopSync_lengths dbq timer vs qvs k nprobe _ _ _ _ heq).1
        simp only [QueryStatsRecorder.new, List.length_nil, Nat.zero_add] at hlen
        simp only [QueryStatsRecorder.finish] at hfin
        split at hfin
        · rename_i s1 f1 rc1 hsome _ _
          simp only [Option.some.injEq] at hfin
          rw [← hfin]
          exact hlen
        · exact absurd hfin (by simp)
      · exact absurd hs (by simp)

theorem recorder_invariant_witness :
    do_batch (fun x : ℚ => x)
      (fun _ _ _ => Except.ok [Except.ok (some (AttributeValue.uint64 0))])
      (fun _ => (1, 1)) [[some 0]] [[some 0]] 1 1 none =
      Except.ok ⟨1, 1, 1, ⟨1, none, 1, 1, 1, 1, 1⟩, ⟨1, none, 1, 1, 1, 1, 1⟩,
        ⟨1, none, 1, 1, 1, 1, 1⟩⟩ ∧
    (⟨1, 1, 1, ⟨1, none, 1, 1, 1, 1, 1⟩, ⟨1, none, 1, 1, 1, 1, 1⟩,
        ⟨1, none, 1, 1, 1, 1, 1⟩⟩ : QueryStats).num_queries = 1 := by
  have hstats : Stats.compute (fun x : ℚ => x) [1] = some ⟨1, none, 1, 1, 1, 1, 1⟩ := by
    have hsort : sortAsc [1] = ([1] : List ℚ) := rfl
    rw [Stats.compute, if_neg (by simp)]
    simp only [hsort]
    norm_num [dotQ, divF]
  have hrecall : calculate_recall [0] [0] = .ok (some 1) := by
    rw [calculate_recall, if_pos rfl]
    norm_num [divF]
  have hflat : flat_query [[some (0 : ℚ)]] [some 0] 1 = [0] := rfl
  have hstep : batchLoopSync
      (fun _ _ _ => Except.ok [Except.ok (some (AttributeValue.uint64 0))])
      (fun _ => (1, 1)) [[some 0]] [[some 0]] 1 1 0 1
      (QueryStatsRecorder.new 1 1) =
      match calculate_recall (flat_query [[some 0]] [some 0] 1) [0] with
      | .error _ => .error .recallPanic
      | .ok rcl => batchLoopSync
          (fun _ _ _ => Except.ok [Except.ok (some (AttributeValue.uint64 0))])
          (fun _ => (1, 1)) [[some 0]] [[some 0]] 1 1 1 0
          ((QueryStatsRecorder.new 1 1).add_record 1 1 rcl) := by
    rw [batchLoopSync]
    rfl
  have hloop : batchLoopSync
      (fun _ _ _ => Except.ok [Except.ok (some (AttributeValue.uint64 0))])
      (fun _ => (1, 1)) [[some 0]] [[some 0]] 1 1 0 1
      (QueryStatsRecorder.new 1 1) = .ok ⟨1, 1, [1], [1], [some 1]⟩ := by
    rw [hstep, hflat, hrecall]
    rfl
  have hrc : computeRecallStats (fun x : ℚ => x) [some 1] =
      some ⟨1, none, 1, 1, 1, 1, 1⟩ := hstats
  have hfin : QueryStatsRecorder.finish (fun x : ℚ => x) ⟨1, 1, [1], [1], [some 1]⟩ =
      some ⟨1, 1, 1, ⟨1, none, 1, 1, 1, 1, 1⟩, ⟨1, none, 1, 1, 1, 1, 1⟩,
        ⟨1, none, 1, 1, 1, 1, 1⟩⟩ := by
    rw [QueryStatsRecorder.finish, hstats, hrc]
    rfl
  have e1 : do_batch (fun x : ℚ => x)
      (fun _ _ _ => Except.ok [Except.ok (some (AttributeValue.uint64 0))])
      (fun _ => (1, 1)) [[some 0]] [[some 0]] 1 1 none =
      match batchLoopSync
          (fun _ _ _ => Except.ok [Except.ok (some (AttributeValue.uint64 0))])
          (fun _ => (1, 1)) [[some 0]] [[some 0]] 1 1 0 1
          (QueryStatsRecorder.new 1 1) with
      | .error e => .error e
      | .ok r =>
        match r.finish (fun x : ℚ => x) with
        | some s => .ok s
        | none => .error .statsPanic := rfl
  have hdo : do_batch (fun x : ℚ => x)
      (fun _ _ _ => Except.ok [Except.ok (some (AttributeValue.uint64 0))])
      (fun _ => (1, 1)) [[some 0]] [[some 0]] 1 1 none =
      Except.ok ⟨1, 1, 1, ⟨1, none, 1, 1, 1, 1, 1⟩, ⟨1, none, 1, 1, 1, 1, 1⟩,
        ⟨1, none, 1, 1, 1, 1, 1⟩⟩ := by
    rw [e1, hloop]
    dsimp only
    rw [hfin]
  refine ⟨hdo, ?_⟩
  exact (recorder_invariant (fun x : ℚ => x)
    (fun _ _ _ => Except.ok [Except.ok (some (AttributeValue.uint64 0))])
    (fun _ => (1, 1)) [[some 0]] [[some 0]] 1 1 none).2 _ hdo
